import Mathlib

/-!
Verification of `design-mirror`.

Part 1 embeds the text-extraction utility
`scripts/extract-keyframes.py` (the only file under `src/`): the
`@keyframes` block extractor based on a regex match followed by a
balanced-bracket scan, the `setdefault`-based deduplication of blocks by
name, and the markdown-output shaping of `main` (sorted names, limit).

Part 2 models the image compressor (`SizeTargetingCompressor`) from the
specification; its source is not part of `src/`, so every definition in
that part is modelled from the spec text and marked as such.

Strings are embedded as `List Char`; the brace characters are named
`lbrace` and `rbrace`.
-/

namespace DesignMirror

/-- The character `\x7b` (opening curly brace). -/
def lbrace : Char := Char.ofNat 123

/-- The character `\x7d` (closing curly brace). -/
def rbrace : Char := Char.ofNat 125

/-- Python's `\s` character class, restricted to the ASCII range
(the inputs of interest are CSS texts). -/
def pySpace (c : Char) : Bool :=
  c = ' ' || c = '\t' || c = '\n' || c = '\r' || c = '\x0b' || c = '\x0c'

/-- `KeyframesBlock` from `extract-keyframes.py`: a named `@keyframes`
block together with the file it came from and its raw css text. -/
structure KeyframesBlock where
  name : List Char
  file : List Char
  css : List Char
deriving DecidableEq

/-- The literal `@keyframes` (10 characters). -/
def kfLit : List Char := "@keyframes".toList

/-- Characters allowed in a keyframes name by the regex class
`[^\s\x7b]`: anything that is neither whitespace nor an opening brace. -/
def nameChar (c : Char) : Bool := !pySpace c && !(c == lbrace)

/-- One attempt of the regex `@keyframes\s+([^\s\x7b]+)\s*\x7b` anchored at
the start of `s`.  Returns the captured name and the total length of the
match (so the opening brace sits at index `length - 1`).  The regex is
deterministic here: each of `\s+`, `[^\s\x7b]+`, `\s*` takes its maximal
run (backtracking cannot create further matches because the three
character classes are disjoint at their boundaries). -/
def kfMatch (s : List Char) : Option (List Char × Nat) :=
  if List.take 10 s = kfLit then
    let rest0 := List.drop 10 s
    let w1 := rest0.takeWhile pySpace
    let rest1 := rest0.dropWhile pySpace
    if w1 = [] then none
    else
      let nm := rest1.takeWhile nameChar
      let rest2 := rest1.dropWhile nameChar
      if nm = [] then none
      else
        let w2 := rest2.takeWhile pySpace
        let rest3 := rest2.dropWhile pySpace
        if rest3.head? = some lbrace then
          some (nm, 10 + w1.length + nm.length + w2.length + 1)
        else none
  else none

/-- The balanced-bracket scan of `extract_keyframes_blocks` (lines 37-48
of the script): starting at depth `depth`, walk the text; `\x7b` increments
the depth, `\x7d` decrements it, and the scan stops at the first `\x7d`
that brings the depth to `0`, returning how many characters were
consumed up to and including that brace.  `none` means the text ran out
before the depth returned to zero. -/
def scanClose : List Char → Int → Option Nat
  | [], _ => none
  | c :: cs, depth =>
    if c = lbrace then (scanClose cs (depth + 1)).map (· + 1)
    else if c = rbrace then
      if depth - 1 = 0 then some 1
      else (scanClose cs (depth - 1)).map (· + 1)
    else (scanClose cs depth).map (· + 1)

/-- The body of `extract_keyframes_blocks`: scan the text left to right;
at each position try the regex; on a match, run the balanced-bracket
scan from the opening brace and (when the scan closes) emit the block
`css_text[match.start() : end]`, then resume at `match.end()` exactly as
`re.finditer` does.  The first argument is fuel; the wrapper passes
`length + 1`, which the fuel lemmas show is always enough. -/
def extract_goF (file : List Char) : Nat → List Char → List KeyframesBlock
  | 0, _ => []
  | _ + 1, [] => []
  | f + 1, c :: cs =>
    match kfMatch (c :: cs) with
    | some (nm, mlen) =>
      (match scanClose (List.drop (mlen - 1) (c :: cs)) 0 with
       | some clen => [⟨nm, file, List.take (mlen - 1 + clen) (c :: cs)⟩]
       | none => []) ++ extract_goF file f (List.drop mlen (c :: cs))
    | none => extract_goF file f cs

/-- `extract_keyframes_blocks(css_text, source_file)` from the script. -/
def extract_keyframes_blocks (css_text source_file : List Char) : List KeyframesBlock :=
  extract_goF source_file (css_text.length + 1) css_text

/-- Running brace balance of a text: occurrences of `\x7b` minus
occurrences of `\x7d`, as an integer (`braceBal_eq_counts` below ties
this recursion to the two character counts). -/
def braceBal : List Char → Int
  | [] => 0
  | c :: l =>
    (if c = lbrace then (1 : Int) else 0) - (if c = rbrace then (1 : Int) else 0) + braceBal l

/-- Lexicographic comparison of strings by code point, the order Python's
`sorted` uses on `str` (`true` iff the first argument is `≤` the
second). -/
def strLe : List Char → List Char → Bool
  | [], _ => true
  | _ :: _, [] => false
  | a :: as, b :: bs => if a < b then true else if b < a then false else strLe as bs

/-- `strLe` as a relation, for use with the sorting machinery. -/
def leName (a b : List Char) : Prop := strLe a b = true

instance : DecidableRel leName := fun a b => instDecidableEqBool (strLe a b) true

/-- Ordering of `(filename, contents)` pairs by filename, modelling
`sorted(glob.glob(...))` in `main` (glob returns paths, sorted
lexicographically). -/
def leFile (a b : List Char × List Char) : Prop := leName a.1 b.1

instance : DecidableRel leFile := fun a b => instDecidableEqBool (strLe a.1 b.1) true

/-- The alphabetically sorted list of `.css` files of `main`
(`css_files = sorted(glob.glob(...))`); a file is a (name, contents)
pair. -/
def sortFiles (files : List (List Char × List Char)) : List (List Char × List Char) :=
  List.insertionSort leFile files

/-- `all_blocks` of `main`: extend with each file's extracted blocks, in
file order. -/
def collectBlocks (files : List (List Char × List Char)) : List KeyframesBlock :=
  files.foldr (fun p acc => extract_keyframes_blocks p.2 p.1 ++ acc) []

/-- The full `all_blocks` list seen by `main`: blocks of the
alphabetically sorted files, in file-then-position order. -/
def mainAllBlocks (files : List (List Char × List Char)) : List KeyframesBlock :=
  collectBlocks (sortFiles files)

/-- One `dedup.setdefault(b.name, b)` step: insert the pair at the end
only when the key is not yet present (Python dicts preserve insertion
order). -/
def dedupStep (acc : List (List Char × KeyframesBlock)) (b : KeyframesBlock) :
    List (List Char × KeyframesBlock) :=
  if (acc.find? (fun p => p.1 == b.name)).isSome then acc else acc ++ [(b.name, b)]

/-- The `dedup` dict of `main`, as an insertion-ordered association
list. -/
def dedupBlocks (bs : List KeyframesBlock) : List (List Char × KeyframesBlock) :=
  bs.foldl dedupStep []

/-- Lookup in the association list modelling `dedup[name]`. -/
def alookup (m : List (List Char × KeyframesBlock)) (n : List Char) : Option KeyframesBlock :=
  (m.find? (fun p => p.1 == n)).map (·.2)

/-- The observable shape of `main`'s markdown output: the
`keyframes (unique)` count of the header, and the list of names whose
sections are emitted — `sorted(dedup.keys())` truncated by
`[: max(0, limit)]`. -/
def mainOutput (files : List (List Char × List Char)) (limit : Int) :
    Nat × List (List Char) :=
  let dd := dedupBlocks (mainAllBlocks files)
  (dd.length, (List.insertionSort leName (dd.map (·.1))).take (max 0 limit).toNat)

/-!
Part 2: the `SizeTargetingCompressor`.  Its source is not under `src/`
(only the spec describes it), so everything below is modelled from the
spec.  Encoding is abstracted as a function `enc : Image → Nat → Nat`
giving the byte size of the image encoded at a quality, since "byte size
is only knowable after encoding".
-/

/-- Modelled from the spec: the decoded in-memory bitmap of the missing
compressor source — width, height, and whether the mode carries
transparency (alpha or indexed). -/
structure Image where
  width : Nat
  height : Nat
  alpha : Bool
deriving DecidableEq

/-- Modelled from the spec: the immutable `CompressionRequest`
configuration of the missing compressor source — max width, initial
quality (1-100), max byte size. -/
structure CompressionRequest where
  max_width : Nat
  initial_quality : Nat
  max_size : Nat
deriving DecidableEq

/-- Modelled from the spec: the `CompressionResult` record of the missing
compressor source — success flag, final quality, final dimensions and
output byte size. -/
structure CompressionResult where
  success : Bool
  quality : Nat
  width : Nat
  height : Nat
  out_size : Nat
deriving DecidableEq

/-- Modelled from the spec: `round(num / den)` on the rationals, written
over naturals (ties round up; `den > 0` at every use site). -/
def rnd (num den : Nat) : Nat := (2 * num + den) / (2 * den)

/-- Modelled from the spec: preprocessing of the missing compressor
source — composite any transparency onto an opaque background (the
dimensions are untouched), then downscale to `max_width` when the width
exceeds it, with `new height = round(width_ratio * old height)`. -/
def preprocess (img : Image) (req : CompressionRequest) : Image :=
  let base : Image := { img with alpha := false }
  if req.max_width < base.width then
    { width := req.max_width,
      height := rnd (req.max_width * base.height) base.width,
      alpha := false }
  else base

/-- Modelled from the spec: the width after one 0.8-factor shrink step of
the missing compressor source (`0.8 * w = 4 * w / 5`, rounded). -/
def shrinkW (w : Nat) : Nat := rnd (4 * w) 5

/-- Modelled from the spec: one aspect-ratio-preserving 0.8-factor shrink
of the image, as performed by the dimension-reduction phase of the
missing compressor source. -/
def shrink (img : Image) : Image :=
  { width := shrinkW img.width, height := rnd (4 * img.height) 5, alpha := img.alpha }

/-- Modelled from the spec: one reduction step of the search loop of the
missing compressor source — while `current_quality > 50` decrement the
quality by 10 and leave the image alone, afterwards shrink the image and
leave the quality alone. -/
def reduceStep (img : Image) (q : Nat) : Image × Nat :=
  if 50 < q then (img, q - 10) else (shrink img, q)

/-- Modelled from the spec: the fallback terminal state of the missing
compressor source — encode the current image at the minimum quality 20
and report success regardless of the size that comes out. -/
def fallbackResult (enc : Image → Nat → Nat) (img : Image) : CompressionResult :=
  { success := true, quality := 20, width := img.width, height := img.height,
    out_size := enc img 20 }

/-- Modelled from the spec: the quality/dimension search loop of the
missing compressor source.  While `current_quality >= 20`: encode; if the
size fits the budget return success; otherwise apply one `reduceStep`,
aborting to the fallback when the shrunk width would fall below the
400px floor.  The first argument is fuel; the wrapper `compress` passes
`quality + width + 1`, which exceeds the loop's decreasing measure, so
the fuel-exhaustion arm is never reached. -/
def searchLoopF (enc : Image → Nat → Nat) (req : CompressionRequest) :
    Nat → Image → Nat → CompressionResult
  | 0, img, _ => fallbackResult enc img
  | f + 1, img, q =>
    if 20 ≤ q then
      if enc img q ≤ req.max_size then
        { success := true, quality := q, width := img.width, height := img.height,
          out_size := enc img q }
      else
        let s := reduceStep img q
        if 50 < q then searchLoopF enc req f s.1 s.2
        else if s.1.width < 400 then fallbackResult enc img
        else searchLoopF enc req f s.1 s.2
    else fallbackResult enc img

/-- Modelled from the spec: `compress(image, request)` of the missing
compressor source — preprocess, then run the search loop starting from
the requested initial quality. -/
def compress (enc : Image → Nat → Nat) (img : Image) (req : CompressionRequest) :
    CompressionResult :=
  searchLoopF enc req (req.initial_quality + (preprocess img req).width + 1)
    (preprocess img req) req.initial_quality

/-- Modelled from the spec: the qualities at which the missing compressor
source calls the encoder, in order — one per loop iteration plus the
final fallback encode at 20.  Mirrors `searchLoopF` branch for
branch. -/
def searchQsF (enc : Image → Nat → Nat) (req : CompressionRequest) :
    Nat → Image → Nat → List Nat
  | 0, _, _ => [20]
  | f + 1, img, q =>
    if 20 ≤ q then
      if enc img q ≤ req.max_size then [q]
      else
        let s := reduceStep img q
        if 50 < q then q :: searchQsF enc req f s.1 s.2
        else if s.1.width < 400 then [q, 20]
        else q :: searchQsF enc req f s.1 s.2
    else [20]

/-- Modelled from the spec: the qualities the encoder is called at during
one full run of `compress`. -/
def compressQs (enc : Image → Nat → Nat) (img : Image) (req : CompressionRequest) :
    List Nat :=
  searchQsF enc req (req.initial_quality + (preprocess img req).width + 1)
    (preprocess img req) req.initial_quality

/-- Modelled from the spec: the qualities reachable from `q` by the fixed
schedule of 10-point decrements applied while the quality exceeds 50
(fuelled; `schedQuals` passes enough fuel). -/
def schedQualsF : Nat → Nat → List Nat
  | 0, q => [q]
  | f + 1, q => if 50 < q then q :: schedQualsF f (q - 10) else [q]

/-- Modelled from the spec: the decrement schedule starting at `q`. -/
def schedQuals (q : Nat) : List Nat := schedQualsF q q

/-- Modelled from the spec: the number of 10-point decrements the
schedule performs from initial quality `q` (closed form: one decrement
per 10 points above 50, and the loop only decrements while `q > 50`,
i.e. `q ≥ 51`). -/
def qSteps (q : Nat) : Nat := (q - 41) / 10

/-- Modelled from the spec: the number of 0.8-factor shrink steps taken
from width `w` before the next shrink would cross the 400px floor
(fuelled; `wSteps` passes enough fuel). -/
def wStepsF : Nat → Nat → Nat
  | 0, _ => 0
  | f + 1, w => if 400 ≤ shrinkW w then wStepsF f (shrinkW w) + 1 else 0

/-- Modelled from the spec: shrink-step count from width `w`. -/
def wSteps (w : Nat) : Nat := wStepsF w w

/-- A constant-size encoder, used to instantiate the abstract encoder at
concrete checkpoints. -/
def constEnc (n : Nat) : Image → Nat → Nat := fun _ _ => n

/-- Modelled from the spec: ASCII lowercasing, for the case-insensitive
unit suffix of the size-budget string. -/
def lowerChar (c : Char) : Char :=
  if 'A' ≤ c ∧ c ≤ 'Z' then Char.ofNat (c.toNat + 32) else c

/-- Modelled from the spec: binary multiplier of a (lowercased) unit
suffix among B, KB, MB, GB. -/
def unitMult (u : List Char) : Option Nat :=
  if u = ['b'] then some 1
  else if u = ['k', 'b'] then some 1024
  else if u = ['m', 'b'] then some (1024 * 1024)
  else if u = ['g', 'b'] then some (1024 * 1024 * 1024)
  else none

/-- Value of a decimal digit character. -/
def digitVal (c : Char) : Nat := c.toNat - 48

/-- Value of a list of decimal digit characters. -/
def natOfDigits (ds : List Char) : Nat :=
  ds.foldl (fun acc c => 10 * acc + digitVal c) 0

/-- Modelled from the spec: the CLI's strict `number + unit` size-budget
parser, which is not part of `src/` — a non-empty run of digits followed
by exactly one of the unit suffixes B/KB/MB/GB, case-insensitively;
anything else yields `none`. -/
def parse_size (s : List Char) : Option Nat :=
  let ds := s.takeWhile Char.isDigit
  let u := s.dropWhile Char.isDigit
  if ds = [] then none
  else
    match unitMult (u.map lowerChar) with
    | some m => some (natOfDigits ds * m)
    | none => none

/-- Modelled from the spec: the process exit status attributable to the
size-budget argument — a malformed size string is a reported
configuration error with exit status 1, not a crash, and a well-formed
one contributes exit status 0. -/
def sizeArgExit (s : List Char) : Nat :=
  match parse_size s with
  | some _ => 0
  | none => 1

/-!
Theorems.  First the helper lemmas about the balanced-bracket scan and
the regex-match decomposition, then one theorem (with witness or
counterexample where required) per claim.
-/

lemma braceBal_cons (c : Char) (l : List Char) :
    braceBal (c :: l) =
      (if c = lbrace then (1 : Int) else 0) - (if c = rbrace then (1 : Int) else 0)
        + braceBal l := rfl

lemma braceBal_cons_lbrace (l : List Char) : braceBal (lbrace :: l) = 1 + braceBal l := by
  rw [braceBal_cons, if_pos rfl, if_neg (by decide)]; ring

lemma braceBal_cons_rbrace (l : List Char) : braceBal (rbrace :: l) = -1 + braceBal l := by
  rw [braceBal_cons, if_neg (by decide), if_pos rfl]; ring

lemma braceBal_cons_other (c : Char) (l : List Char) (h1 : ¬c = lbrace) (h2 : ¬c = rbrace) :
    braceBal (c :: l) = braceBal l := by
  rw [braceBal_cons, if_neg h1, if_neg h2]; ring

/-- The recursive balance is the difference of the two brace counts, so
`braceBal u = 0` says exactly that `u` has equally many `\x7b` and
`\x7d`. -/
lemma braceBal_eq_counts (l : List Char) :
    braceBal l = (List.count lbrace l : Int) - (List.count rbrace l : Int) := by
  induction l with
  | nil => simp [braceBal]
  | cons c l ih =>
    rw [braceBal_cons, ih]
    by_cases h1 : c = lbrace
    · subst h1
      rw [if_pos rfl, if_neg (by decide)]
      simp [List.count_cons, (by decide : ¬(lbrace = rbrace))]
      ring
    · by_cases h2 : c = rbrace
      · subst h2
        rw [if_neg (by decide), if_pos rfl]
        simp [List.count_cons, (by decide : ¬(rbrace = lbrace))]
        ring
      · rw [if_neg h1, if_neg h2]
        have hb1 : (c == lbrace) = false := by simpa using h1
        have hb2 : (c == rbrace) = false := by simpa using h2
        simp [List.count_cons, hb1, hb2]

lemma scanClose_le_length :
    ∀ (t : List Char) (d : Int) (n : Nat), scanClose t d = some n → n ≤ t.length := by
  intro t
  induction t with
  | nil => intro d n h; simp [scanClose] at h
  | cons c cs ih =>
    intro d n h
    rw [scanClose] at h
    split_ifs at h with h1 h2 h3
    · obtain ⟨n', hn', rfl⟩ := Option.map_eq_some'.mp h
      simpa using Nat.succ_le_succ (ih _ _ hn')
    · cases h
      simp
    · obtain ⟨n', hn', rfl⟩ := Option.map_eq_some'.mp h
      simpa using Nat.succ_le_succ (ih _ _ hn')
    · obtain ⟨n', hn', rfl⟩ := Option.map_eq_some'.mp h
      simpa using Nat.succ_le_succ (ih _ _ hn')

/-- Specification of the balanced-bracket scan when started strictly
inside a block (depth `d ≥ 1`): the consumed prefix ends with `\x7d`,
closes the depth exactly (`d + bal = 0`), and every shorter prefix keeps
the depth positive. -/
lemma scanClose_spec :
    ∀ (t : List Char) (d : Int) (n : Nat), 1 ≤ d → scanClose t d = some n →
      1 ≤ n ∧ (∃ l, List.take n t = l ++ [rbrace]) ∧
        d + braceBal (List.take n t) = 0 ∧
        ∀ m, m < n → 1 ≤ d + braceBal (List.take m t) := by
  intro t
  induction t with
  | nil => intro d n hd h; simp [scanClose] at h
  | cons c cs ih =>
    intro d n hd h
    rw [scanClose] at h
    split_ifs at h with h1 h2 h3
    · subst h1
      obtain ⟨n', hn', rfl⟩ := Option.map_eq_some'.mp h
      obtain ⟨hn1, ⟨l, hl⟩, hbal, hpre⟩ := ih (d + 1) n' (by omega) hn'
      refine ⟨by omega, ⟨lbrace :: l, ?_⟩, ?_, ?_⟩
      · rw [List.take_succ_cons, hl]
        rfl
      · rw [List.take_succ_cons, braceBal_cons_lbrace]
        omega
      · intro m hm
        cases m with
        | zero => simpa [braceBal] using hd
        | succ m' =>
          rw [List.take_succ_cons, braceBal_cons_lbrace]
          have := hpre m' (by omega)
          omega
    · subst h2
      cases h
      refine ⟨le_refl 1, ⟨[], by simp⟩, ?_, ?_⟩
      · have : List.take 1 (rbrace :: cs) = [rbrace] := by simp
        rw [this]
        have : braceBal [rbrace] = -1 := by
          rw [braceBal_cons_rbrace]; simp [braceBal]
        omega
      · intro m hm
        have hm0 : m = 0 := by omega
        subst hm0
        simpa [braceBal] using hd
    · subst h2
      obtain ⟨n', hn', rfl⟩ := Option.map_eq_some'.mp h
      obtain ⟨hn1, ⟨l, hl⟩, hbal, hpre⟩ := ih (d - 1) n' (by omega) hn'
      refine ⟨by omega, ⟨rbrace :: l, ?_⟩, ?_, ?_⟩
      · rw [List.take_succ_cons, hl]
        rfl
      · rw [List.take_succ_cons, braceBal_cons_rbrace]
        omega
      · intro m hm
        cases m with
        | zero => simpa [braceBal] using hd
        | succ m' =>
          rw [List.take_succ_cons, braceBal_cons_rbrace]
          have := hpre m' (by omega)
          omega
    · obtain ⟨n', hn', rfl⟩ := Option.map_eq_some'.mp h
      obtain ⟨hn1, ⟨l, hl⟩, hbal, hpre⟩ := ih d n' hd hn'
      refine ⟨by omega, ⟨c :: l, ?_⟩, ?_, ?_⟩
      · rw [List.take_succ_cons, hl]
        rfl
      · rw [List.take_succ_cons, braceBal_cons_other c _ h1 h2]
        omega
      · intro m hm
        cases m with
        | zero => simpa [braceBal] using hd
        | succ m' =>
          rw [List.take_succ_cons, braceBal_cons_other c _ h1 h2]
          have := hpre m' (by omega)
          omega

/-- Decomposition of a successful regex match: the text splits into the
literal, a nonempty whitespace run, the captured name, another
whitespace run, and the opening brace, with the match length counting
exactly these pieces. -/
lemma kfMatch_split {s nm : List Char} {mlen : Nat} (h : kfMatch s = some (nm, mlen)) :
    ∃ w1 w2 rest, s = (kfLit ++ w1 ++ nm ++ w2) ++ lbrace :: rest ∧
      mlen = 10 + w1.length + nm.length + w2.length + 1 ∧
      (∀ c ∈ w1, pySpace c = true) ∧ (∀ c ∈ nm, nameChar c = true) ∧
      (∀ c ∈ w2, pySpace c = true) := by
  simp only [kfMatch] at h
  by_cases h10 : List.take 10 s = kfLit
  · rw [if_pos h10] at h
    by_cases hw : List.takeWhile pySpace (List.drop 10 s) = []
    · rw [if_pos hw] at h
      exact Option.noConfusion h
    · rw [if_neg hw] at h
      by_cases hn : List.takeWhile nameChar (List.dropWhile pySpace (List.drop 10 s)) = []
      · rw [if_pos hn] at h
        exact Option.noConfusion h
      · rw [if_neg hn] at h
        by_cases hh :
            (List.dropWhile pySpace
              (List.dropWhile nameChar
                (List.dropWhile pySpace (List.drop 10 s)))).head? = some lbrace
        · rw [if_pos hh] at h
          have h' := Option.some.inj h
          rw [Prod.mk.injEq] at h'
          obtain ⟨hA, hB⟩ := h'
          obtain ⟨tail, htail⟩ :
              ∃ tail, List.dropWhile pySpace
                (List.dropWhile nameChar
                  (List.dropWhile pySpace (List.drop 10 s))) = lbrace :: tail := by
            cases hr :
                List.dropWhile pySpace
                  (List.dropWhile nameChar
                    (List.dropWhile pySpace (List.drop 10 s))) with
            | nil => rw [hr] at hh; exact Option.noConfusion hh
            | cons c t =>
              rw [hr] at hh
              exact ⟨t, by rw [Option.some.inj hh]⟩
          refine ⟨List.takeWhile pySpace (List.drop 10 s),
            List.takeWhile pySpace
              (List.dropWhile nameChar (List.dropWhile pySpace (List.drop 10 s))),
            tail, ?_, ?_, ?_, ?_, ?_⟩
          · subst hA
            conv_lhs => rw [← List.take_append_drop 10 s]
            rw [h10]
            simp only [List.append_assoc]
            congr 1
            conv_lhs => rw [← List.takeWhile_append_dropWhile pySpace (List.drop 10 s)]
            congr 1
            conv_lhs =>
              rw [← List.takeWhile_append_dropWhile nameChar
                (List.dropWhile pySpace (List.drop 10 s))]
            congr 1
            conv_lhs =>
              rw [← List.takeWhile_append_dropWhile pySpace
                (List.dropWhile nameChar (List.dropWhile pySpace (List.drop 10 s)))]
            rw [htail]
          · subst hA
            exact hB.symm
          · exact fun c hc => List.mem_takeWhile_imp hc
          · subst hA
            exact fun c hc => List.mem_takeWhile_imp hc
          · exact fun c hc => List.mem_takeWhile_imp hc
        · rw [if_neg hh] at h
          exact Option.noConfusion h
  · rw [if_neg h10] at h
    exact Option.noConfusion h

/-- A successful match consumes at least one character. -/
lemma kfMatch_pos {s nm : List Char} {mlen : Nat} (h : kfMatch s = some (nm, mlen)) :
    1 ≤ mlen := by
  obtain ⟨w1, w2, rest, _, hml, _⟩ := kfMatch_split h
  omega

/-- Shape of every block produced by the extractor body: its css is a
contiguous substring of the scanned text, starts with the `@keyframes`
literal, ends with `\x7d`, and from its first `\x7b` on is exactly a
balanced block (balance zero, strictly positive on every proper
nonempty prefix); before that first `\x7b` there is no opening brace. -/
lemma extract_goF_spec (file : List Char) :
    ∀ (f : Nat) (s : List Char), s.length < f →
      ∀ b ∈ extract_goF file f s,
        (∃ u v, s = u ++ b.css ++ v) ∧
        (∃ t, b.css = kfLit ++ t) ∧
        (∃ l, b.css = l ++ [rbrace]) ∧
        (∃ p q, b.css = p ++ lbrace :: q ∧ lbrace ∉ p ∧
          braceBal (lbrace :: q) = 0 ∧
          ∀ m, 0 < m → m < (lbrace :: q).length →
            1 ≤ braceBal (List.take m (lbrace :: q))) := by
  intro f
  induction f with
  | zero => intro s hs; exact absurd hs (Nat.not_lt_zero _)
  | succ f ih =>
    intro s hs b hb
    cases s with
    | nil => simp [extract_goF] at hb
    | cons c cs =>
      simp only [extract_goF] at hb
      split at hb
      next nm mlen hm =>
        rcases List.mem_append.mp hb with hbl | hbr
        · split at hbl
          next clen hscan =>
            rw [List.mem_singleton] at hbl
            subst hbl
            obtain ⟨w1, w2, rest, hseq, hml, hw1, hnm, hw2⟩ := kfMatch_split hm
            have hkf10 : kfLit.length = 10 := by decide
            have hPlen : (kfLit ++ w1 ++ nm ++ w2).length = mlen - 1 := by
              simp [List.length_append, hkf10]
              omega
            have hdrop : List.drop (mlen - 1) (c :: cs) = lbrace :: rest := by
              rw [hseq, ← hPlen, List.drop_left]
            rw [hdrop] at hscan
            simp only [scanClose, if_true] at hscan
            obtain ⟨n', hn', hcl⟩ := Option.map_eq_some'.mp hscan
            have hn'' : scanClose rest 1 = some n' := by
              have h01 : (0 : Int) + 1 = 1 := by norm_num
              rwa [h01] at hn'
            obtain ⟨hn1, ⟨l, hl⟩, hbal, hpre⟩ := scanClose_spec rest 1 n' (le_refl 1) hn''
            have hcss : List.take (mlen - 1 + clen) (c :: cs)
                = (kfLit ++ w1 ++ nm ++ w2) ++ lbrace :: List.take n' rest := by
              rw [hseq, ← hPlen, List.take_append]
              congr 1
              rw [← hcl, List.take_succ_cons]
            refine ⟨⟨[], List.drop (mlen - 1 + clen) (c :: cs), ?_⟩,
              ⟨w1 ++ nm ++ w2 ++ lbrace :: List.take n' rest, ?_⟩,
              ⟨(kfLit ++ w1 ++ nm ++ w2) ++ lbrace :: l, ?_⟩,
              ⟨kfLit ++ w1 ++ nm ++ w2, List.take n' rest, ?_, ?_, ?_, ?_⟩⟩
            · rw [List.nil_append, List.take_append_drop]
            · show List.take (mlen - 1 + clen) (c :: cs) = _
              rw [hcss]
              simp [List.append_assoc]
            · show List.take (mlen - 1 + clen) (c :: cs) = _
              rw [hcss, hl]
              simp
            · exact hcss
            · intro hmem
              simp only [List.append_assoc, List.mem_append] at hmem
              rcases hmem with h' | h' | h' | h'
              · exact absurd h' (by decide)
              · exact absurd (hw1 _ h') (by decide)
              · exact absurd (hnm _ h') (by decide)
              · exact absurd (hw2 _ h') (by decide)
            · rw [braceBal_cons_lbrace]
              omega
            · intro m hm0 hmlt
              cases m with
              | zero => omega
              | succ m' =>
                rw [List.take_succ_cons, braceBal_cons_lbrace]
                have hqlen : (List.take n' rest).length ≤ n' := by
                  rw [List.length_take]
                  exact inf_le_left
                have hm'n : m' < n' := by
                  simp only [List.length_cons] at hmlt
                  omega
                have htake : List.take m' (List.take n' rest) = List.take m' rest := by
                  rw [List.take_take]
                  congr 1
                  exact inf_eq_left.mpr (le_of_lt hm'n)
                rw [htake]
                have := hpre m' hm'n
                omega
          next hscan => simp at hbl
        · have hfuel : (List.drop mlen (c :: cs)).length < f := by
            simp only [List.length_cons] at hs
            rw [List.length_drop, List.length_cons]
            have := kfMatch_pos hm
            omega
          obtain ⟨⟨u, v, huv⟩, h2, h3, h4⟩ := ih (List.drop mlen (c :: cs)) hfuel b hbr
          refine ⟨⟨List.take mlen (c :: cs) ++ u, v, ?_⟩, h2, h3, h4⟩
          conv_lhs => rw [← List.take_append_drop mlen (c :: cs)]
          rw [huv]
          simp [List.append_assoc]
      next hm =>
        have hfuel : cs.length < f := by
          simp only [List.length_cons] at hs
          omega
        obtain ⟨⟨u, v, huv⟩, h2, h3, h4⟩ := ih cs hfuel b hb
        exact ⟨⟨c :: u, v, by rw [huv]; rfl⟩, h2, h3, h4⟩

/-- Claim C1 (amended): every `KeyframesBlock` returned by
`extract_keyframes_blocks(css_text, source_file)` has a `css` field that
is a contiguous substring of `css_text`, starts with `@keyframes`, ends
with `\x7d`, and — from its first `\x7b` onwards — has balanced curly
braces (balance `0`, i.e. equal counts of the two braces over that
suffix, with the depth scan reaching `0` exactly at the final
character); the part before that first `\x7b` contains no `\x7b`.  The
amendment restricts the count-equality/depth property to the suffix
from the first opening brace, because the captured name may itself
contain `\x7d` characters (see the counterexample). -/
theorem c1_extracted_block_shape (css_text source_file : List Char) (b : KeyframesBlock)
    (hb : b ∈ extract_keyframes_blocks css_text source_file) :
    (∃ u v, css_text = u ++ b.css ++ v) ∧
    (∃ t, b.css = kfLit ++ t) ∧
    (∃ l, b.css = l ++ [rbrace]) ∧
    (∃ p q, b.css = p ++ lbrace :: q ∧ lbrace ∉ p ∧
      braceBal (lbrace :: q) = 0 ∧
      ∀ m, 0 < m → m < (lbrace :: q).length →
        1 ≤ braceBal (List.take m (lbrace :: q))) :=
  extract_goF_spec source_file (css_text.length + 1) css_text (Nat.lt_succ_self _) b hb

/-- Claim C1 as frozen is false at the input `@keyframes a\x7db\x7b\x7d`:
the extractor returns the whole string as a block, and that css has one
`\x7b` but two `\x7d` — the regex's name capture may contain closing
braces, so the block's brace counts need not be equal. -/
theorem c1_counterexample :
    ∃ b ∈ extract_keyframes_blocks ("@keyframes a\x7db\x7b\x7d".toList) ("app.css".toList),
      ¬ List.count lbrace b.css = List.count rbrace b.css := by
  decide

/-- Witness for the amended C1 theorem at a concrete extraction. -/
theorem c1_witness :
    (∃ u v, ("x@keyframes spin \x7ba\x7d y".toList)
        = u ++ (⟨"spin".toList, "app.css".toList,
            "@keyframes spin \x7ba\x7d".toList⟩ : KeyframesBlock).css ++ v) ∧
    (∃ t, (⟨"spin".toList, "app.css".toList,
        "@keyframes spin \x7ba\x7d".toList⟩ : KeyframesBlock).css = kfLit ++ t) ∧
    (∃ l, (⟨"spin".toList, "app.css".toList,
        "@keyframes spin \x7ba\x7d".toList⟩ : KeyframesBlock).css = l ++ [rbrace]) ∧
    (∃ p q, (⟨"spin".toList, "app.css".toList,
        "@keyframes spin \x7ba\x7d".toList⟩ : KeyframesBlock).css = p ++ lbrace :: q ∧
      lbrace ∉ p ∧ braceBal (lbrace :: q) = 0 ∧
      ∀ m, 0 < m → m < (lbrace :: q).length →
        1 ≤ braceBal (List.take m (lbrace :: q))) :=
  c1_extracted_block_shape ("x@keyframes spin \x7ba\x7d y".toList) ("app.css".toList)
    ⟨"spin".toList, "app.css".toList, "@keyframes spin \x7ba\x7d".toList⟩ (by decide)

/-- Claim C8: the extractor is total (it is a function on all inputs,
with the inner scan consuming at most `len(css_text)` characters —
second conjunct), and a `@keyframes` match whose opening brace is never
rebalanced before the end of the text contributes no block: extraction
of a text whose head match has an unclosed brace equals extraction
resumed after that match (first conjunct), so the unclosed block is
silently dropped. -/
theorem c8_total_and_unclosed_dropped (file s nm : List Char) (mlen : Nat)
    (hm : kfMatch s = some (nm, mlen))
    (hscan : scanClose (List.drop (mlen - 1) s) 0 = none) :
    extract_keyframes_blocks s file = extract_goF file s.length (List.drop mlen s) ∧
    ∀ (t : List Char) (d : Int) (n : Nat), scanClose t d = some n → n ≤ t.length := by
  refine ⟨?_, fun t d n h => scanClose_le_length t d n h⟩
  cases s with
  | nil =>
    rw [(by decide : kfMatch ([] : List Char) = none)] at hm
    exact Option.noConfusion hm
  | cons c cs =>
    show extract_goF file ((c :: cs).length + 1) (c :: cs) = _
    have hl : (c :: cs).length + 1 = cs.length + 1 + 1 := rfl
    rw [hl]
    simp only [extract_goF, hm, hscan, List.nil_append, List.length_cons]

/-- Witness for C8: a concrete text whose only match has an unclosed
brace extracts to the same blocks as the text resumed after the match,
and a concrete successful scan is bounded by the text length. -/
theorem c8_witness :
    extract_keyframes_blocks ("@keyframes spin \x7bfoo".toList) ("a.css".toList)
        = extract_goF ("a.css".toList) 20 (List.drop 17 ("@keyframes spin \x7bfoo".toList)) ∧
    (2 : Nat) ≤ ("\x7b\x7d".toList).length := by
  constructor
  · exact (c8_total_and_unclosed_dropped ("a.css".toList) ("@keyframes spin \x7bfoo".toList)
      ("spin".toList) 17 (by decide) (by decide)).1
  · exact (c8_total_and_unclosed_dropped ("a.css".toList) ("@keyframes spin \x7bfoo".toList)
      ("spin".toList) 17 (by decide) (by decide)).2 ("\x7b\x7d".toList) 0 2 (by decide)

lemma strLe_cons (a b : Char) (as bs : List Char) :
    strLe (a :: as) (b :: bs) = true ↔ a < b ∨ (a = b ∧ strLe as bs = true) := by
  show (if a < b then true else if b < a then false else strLe as bs) = true ↔ _
  split_ifs with h1 h2
  · simp [h1]
  · constructor
    · intro h
      simp at h
    · rintro (h | ⟨rfl, -⟩)
      · exact absurd h h1
      · exact absurd h2 (lt_irrefl a)
  · have hab : a = b := le_antisymm (not_lt.mp h2) (not_lt.mp h1)
    simp [hab, lt_self_iff_false]

lemma strLe_total' : ∀ a b : List Char, strLe a b = true ∨ strLe b a = true := by
  intro a
  induction a with
  | nil => intro b; left; rfl
  | cons x xs ih =>
    intro b
    cases b with
    | nil => right; rfl
    | cons y ys =>
      rcases lt_trichotomy x y with h | h | h
      · left
        exact (strLe_cons x y xs ys).mpr (Or.inl h)
      · subst h
        rcases ih ys with h' | h'
        · left
          exact (strLe_cons x x xs ys).mpr (Or.inr ⟨rfl, h'⟩)
        · right
          exact (strLe_cons x x ys xs).mpr (Or.inr ⟨rfl, h'⟩)
      · right
        exact (strLe_cons y x ys xs).mpr (Or.inl h)

lemma strLe_trans' : ∀ a b c : List Char,
    strLe a b = true → strLe b c = true → strLe a c = true := by
  intro a
  induction a with
  | nil => intro b c _ _; rfl
  | cons x xs ih =>
    intro b c h1 h2
    cases b with
    | nil =>
      exact absurd h1 (by simp [strLe])
    | cons y ys =>
      cases c with
      | nil =>
        exact absurd h2 (by simp [strLe])
      | cons z zs =>
        rcases (strLe_cons x y xs ys).mp h1 with hxy | ⟨hq, hxs⟩
        · rcases (strLe_cons y z ys zs).mp h2 with hyz | ⟨hq2, hys⟩
          · exact (strLe_cons x z xs zs).mpr (Or.inl (lt_trans hxy hyz))
          · have hxz : x < z := by rw [← hq2]; exact hxy
            exact (strLe_cons x z xs zs).mpr (Or.inl hxz)
        · rcases (strLe_cons y z ys zs).mp h2 with hyz | ⟨hq2, hys⟩
          · have hxz : x < z := by rw [hq]; exact hyz
            exact (strLe_cons x z xs zs).mpr (Or.inl hxz)
          · exact (strLe_cons x z xs zs).mpr (Or.inr ⟨hq.trans hq2, ih ys zs hxs hys⟩)

lemma alookup_append (m₁ m₂ : List (List Char × KeyframesBlock)) (n : List Char) :
    alookup (m₁ ++ m₂) n = (alookup m₁ n).or (alookup m₂ n) := by
  unfold alookup
  rw [List.find?_append]
  cases List.find? (fun p => p.1 == n) m₁ with
  | none => simp
  | some x => simp [Option.or]

/-- The `setdefault` fold, relative to an arbitrary accumulator: a
lookup prefers what the accumulator already holds, and otherwise finds
the first block with the name in the remaining input. -/
lemma alookup_foldl :
    ∀ (bs : List KeyframesBlock) (acc : List (List Char × KeyframesBlock)) (n : List Char),
      alookup (List.foldl dedupStep acc bs) n
        = (alookup acc n).or (List.find? (fun b => b.name == n) bs) := by
  intro bs
  induction bs with
  | nil =>
    intro acc n
    simp
  | cons b bs ih =>
    intro acc n
    rw [List.foldl_cons, ih]
    by_cases hbn : (b.name == n) = true
    · simp only [List.find?_cons, hbn]
      have hn : b.name = n := by simpa using hbn
      subst hn
      by_cases hmem : (List.find? (fun p => p.1 == b.name) acc).isSome = true
      · rw [dedupStep, if_pos hmem]
        have hsome : (alookup acc b.name).isSome = true := by
          obtain ⟨v, hv⟩ := Option.isSome_iff_exists.mp hmem
          simp [alookup, hv]
        rw [Option.or_of_isSome hsome, Option.or_of_isSome hsome]
      · rw [dedupStep, if_neg hmem, alookup_append]
        have hone : alookup [(b.name, b)] b.name = some b := by
          simp [alookup, List.find?]
        rw [hone, Option.or_assoc]
        congr 1
    · have hbn' : (b.name == n) = false := by simpa using hbn
      simp only [List.find?_cons, hbn']
      have hstep : alookup (dedupStep acc b) n = alookup acc n := by
        unfold dedupStep
        split_ifs with hmem
        · rfl
        · rw [alookup_append]
          have hone : alookup [(b.name, b)] n = none := by
            simp [alookup, List.find?, hbn']
          rw [hone, Option.or_none]
      rw [hstep]

/-- `dedup` lookup is `find?`: the first block with the name wins. -/
lemma alookup_dedupBlocks (bs : List KeyframesBlock) (n : List Char) :
    alookup (dedupBlocks bs) n = List.find? (fun b => b.name == n) bs := by
  have h := alookup_foldl bs [] n
  simpa [dedupBlocks, alookup] using h

/-- Claim C9: deduplication in `main` keeps the first appearance — for
every keyframes name, the block held by `dedup` is the first block with
that name in the file-then-position order of `all_blocks` over the
alphabetically sorted `.css` files, and later blocks with the same name
never replace it (`dict.setdefault` semantics). -/
theorem c9_dedup_keeps_first (files : List (List Char × List Char)) (n : List Char) :
    alookup (dedupBlocks (mainAllBlocks files)) n
      = List.find? (fun b => b.name == n) (mainAllBlocks files) :=
  alookup_dedupBlocks (mainAllBlocks files) n

/-- Claim C10: the markdown output lists keyframes sections in
lexicographically sorted name order, contains at most `max 0 limit`
sections (so a negative `--limit` yields zero sections), and the
`keyframes (unique)` header count is the total number of unique names,
independent of the limit. -/
theorem c10_markdown_output (files : List (List Char × List Char)) (limit : Int) :
    List.Sorted leName (mainOutput files limit).2 ∧
    (mainOutput files limit).2.length ≤ (max 0 limit).toNat ∧
    (limit < 0 → (mainOutput files limit).2 = []) ∧
    (mainOutput files limit).1 = (dedupBlocks (mainAllBlocks files)).length ∧
    ∀ limit' : Int, (mainOutput files limit').1 = (mainOutput files limit).1 := by
  refine ⟨?_, ?_, ?_, rfl, fun limit' => rfl⟩
  · have hsorted := @List.sorted_insertionSort (List Char) leName _
      ⟨strLe_total'⟩ ⟨strLe_trans'⟩
      ((dedupBlocks (mainAllBlocks files)).map (·.1))
    exact List.Pairwise.sublist (List.take_sublist _ _) hsorted
  · have hdef : (mainOutput files limit).2
        = (List.insertionSort leName ((dedupBlocks (mainAllBlocks files)).map (·.1))).take
            (max 0 limit).toNat := rfl
    rw [hdef, List.length_take]
    exact inf_le_left
  · intro hl
    have hmax : max (0 : Int) limit = 0 := max_eq_left (le_of_lt hl)
    have hdef : (mainOutput files limit).2
        = (List.insertionSort leName ((dedupBlocks (mainAllBlocks files)).map (·.1))).take
            (max 0 limit).toNat := rfl
    rw [hdef, hmax]
    rfl

/-- Witness for C10 at one concrete folder: a negative limit emits no
sections, and the header count does not depend on the limit. -/
theorem c10_witness :
    (mainOutput [("a.css".toList, "@keyframes m\x7b1\x7d @keyframes k\x7b2\x7d".toList)]
        (-1)).2 = [] ∧
    (mainOutput [("a.css".toList, "@keyframes m\x7b1\x7d @keyframes k\x7b2\x7d".toList)] 5).1
      = (mainOutput [("a.css".toList, "@keyframes m\x7b1\x7d @keyframes k\x7b2\x7d".toList)]
          (-1)).1 := by
  constructor
  · exact (c10_markdown_output
      [("a.css".toList, "@keyframes m\x7b1\x7d @keyframes k\x7b2\x7d".toList)] (-1)).2.2.1
      (by norm_num)
  · exact (c10_markdown_output
      [("a.css".toList, "@keyframes m\x7b1\x7d @keyframes k\x7b2\x7d".toList)] (-1)).2.2.2.2 5

/-- Claim C7: the size-budget parser maps `500KB` to exactly `512000`
bytes and `2MB` to exactly `2097152` bytes (binary units), accepts a
digit run plus a unit among B/KB/MB/GB in any case, and rejects
everything else (such as `abc`) as a reported configuration error with a
non-zero exit status — `sizeArgExit` is a total function, so rejection
is a value, not a crash. -/
theorem c7_size_string_parsing :
    parse_size ("500KB".toList) = some 512000 ∧
    parse_size ("2MB".toList) = some 2097152 ∧
    parse_size ("abc".toList) = none ∧
    sizeArgExit ("abc".toList) = 1 ∧
    sizeArgExit ("500KB".toList) = 0 ∧
    parse_size ("500kb".toList) = some 512000 ∧
    parse_size ("2mB".toList) = some 2097152 ∧
    parse_size ("7b".toList) = some 7 ∧
    parse_size ("3GB".toList) = some 3221225472 ∧
    parse_size ("".toList) = none ∧
    parse_size ("MB".toList) = none ∧
    parse_size ("12XB".toList) = none ∧
    parse_size ("12 MB".toList) = none := by
  decide

/-!
Lemmas about the modelled compressor, then claims C2-C6.
-/

lemma shrinkW_eq (w : Nat) : shrinkW w = (8 * w + 5) / 10 := by
  unfold shrinkW rnd
  congr 1
  omega

lemma shrinkW_lt {w : Nat} (h : 400 ≤ shrinkW w) : shrinkW w < w := by
  rw [shrinkW_eq] at *
  omega

lemma preprocess_of_le (img : Image) (req : CompressionRequest)
    (h : img.width ≤ req.max_width) :
    preprocess img req = ⟨img.width, img.height, false⟩ := by
  simp only [preprocess]
  rw [if_neg (not_lt.mpr h)]

lemma preprocess_width_ge (img : Image) (req : CompressionRequest)
    (h1 : 400 ≤ img.width) (h2 : 400 ≤ req.max_width) :
    400 ≤ (preprocess img req).width := by
  simp only [preprocess]
  split_ifs with h
  · simpa using h2
  · simpa using h1

/-- The loop always reports success, and whenever the reported size
exceeds the budget the result came from the fallback: quality 20 and a
size that is some image's encoding at quality 20. -/
lemma searchLoopF_spec (enc : Image → Nat → Nat) (req : CompressionRequest) :
    ∀ (f : Nat) (img : Image) (q : Nat),
      (searchLoopF enc req f img q).success = true ∧
      (req.max_size < (searchLoopF enc req f img q).out_size →
        (searchLoopF enc req f img q).quality = 20 ∧
        ∃ i : Image, i.width = (searchLoopF enc req f img q).width ∧
          i.height = (searchLoopF enc req f img q).height ∧
          (searchLoopF enc req f img q).out_size = enc i 20) := by
  intro f
  induction f with
  | zero =>
    intro img q
    exact ⟨rfl, fun _ => ⟨rfl, img, rfl, rfl, rfl⟩⟩
  | succ f ih =>
    intro img q
    simp only [searchLoopF]
    split_ifs with h20 hsz hq hw
    · refine ⟨rfl, fun h => absurd ?_ (not_lt.mpr hsz)⟩
      exact h
    · have hr : reduceStep img q = (img, q - 10) := by rw [reduceStep, if_pos hq]
      rw [hr]
      exact ih img (q - 10)
    · exact ⟨rfl, fun _ => ⟨rfl, img, rfl, rfl, rfl⟩⟩
    · have hr : reduceStep img q = (shrink img, q) := by rw [reduceStep, if_neg hq]
      rw [hr]
      exact ih (shrink img) q
    · exact ⟨rfl, fun _ => ⟨rfl, img, rfl, rfl, rfl⟩⟩

/-- Quality bound along the whole trace of encoder calls. -/
lemma searchQsF_bounds (enc : Image → Nat → Nat) (req : CompressionRequest) :
    ∀ (f : Nat) (img : Image) (q : Nat), q ≤ 100 →
      ∀ x ∈ searchQsF enc req f img q, 20 ≤ x ∧ x ≤ 100 := by
  intro f
  induction f with
  | zero =>
    intro img q hq x hx
    simp only [searchQsF, List.mem_singleton] at hx
    subst hx
    exact ⟨le_refl 20, by omega⟩
  | succ f ih =>
    intro img q hq x hx
    simp only [searchQsF] at hx
    split_ifs at hx with h20 hsz hq50 hw
    · simp only [List.mem_singleton] at hx
      subst hx
      exact ⟨h20, hq⟩
    · have hr : reduceStep img q = (img, q - 10) := by rw [reduceStep, if_pos hq50]
      rw [hr] at hx
      rcases List.mem_cons.mp hx with rfl | hx'
      · exact ⟨h20, hq⟩
      · exact ih img (q - 10) (by omega) x hx'
    · simp only [List.mem_cons, List.mem_singleton] at hx
      rcases hx with rfl | rfl | hx'
      · exact ⟨h20, hq⟩
      · exact ⟨le_refl 20, by omega⟩
      · exact absurd hx' (List.not_mem_nil x)
    · have hr : reduceStep img q = (shrink img, q) := by rw [reduceStep, if_neg hq50]
      rw [hr] at hx
      rcases List.mem_cons.mp hx with rfl | hx'
      · exact ⟨h20, hq⟩
      · exact ih (shrink img) q hq x hx'
    · simp only [List.mem_singleton] at hx
      subst hx
      exact ⟨le_refl 20, by omega⟩

/-- The 400px width floor is an invariant of the loop. -/
lemma searchLoopF_width_floor (enc : Image → Nat → Nat) (req : CompressionRequest) :
    ∀ (f : Nat) (img : Image) (q : Nat), 400 ≤ img.width →
      400 ≤ (searchLoopF enc req f img q).width := by
  intro f
  induction f with
  | zero => intro img q h; exact h
  | succ f ih =>
    intro img q h
    simp only [searchLoopF]
    split_ifs with h20 hsz hq hw
    · exact h
    · have hr : reduceStep img q = (img, q - 10) := by rw [reduceStep, if_pos hq]
      rw [hr]
      exact ih img (q - 10) h
    · exact h
    · have hr : reduceStep img q = (shrink img, q) := by rw [reduceStep, if_neg hq]
      rw [hr] at hw ⊢
      exact ih (shrink img) q (not_lt.mp hw)
    · exact h

lemma schedQualsF_irrel : ∀ (f f' q : Nat), q ≤ 10 * f + 50 → q ≤ 10 * f' + 50 →
    schedQualsF f q = schedQualsF f' q := by
  intro f
  induction f with
  | zero =>
    intro f' q h _
    have hq : ¬ 50 < q := by omega
    cases f' with
    | zero => rfl
    | succ f'' =>
      simp only [schedQualsF]
      rw [if_neg hq]
  | succ f ih =>
    intro f' q h h'
    by_cases hq : 50 < q
    · cases f' with
      | zero => omega
      | succ f'' =>
        simp only [schedQualsF]
        rw [if_pos hq, if_pos hq]
        congr 1
        exact ih f'' (q - 10) (by omega) (by omega)
    · cases f' with
      | zero =>
        simp only [schedQualsF]
        rw [if_neg hq]
      | succ f'' =>
        simp only [schedQualsF]
        rw [if_neg hq, if_neg hq]

lemma schedQuals_cons {q : Nat} (hq : 50 < q) :
    schedQuals q = q :: schedQuals (q - 10) := by
  obtain ⟨f, rfl⟩ : ∃ f, q = f + 1 := ⟨q - 1, by omega⟩
  show schedQualsF (f + 1) (f + 1) = (f + 1) :: schedQualsF (f + 1 - 10) (f + 1 - 10)
  simp only [schedQualsF]
  rw [if_pos hq]
  congr 1
  exact schedQualsF_irrel f (f + 1 - 10) (f + 1 - 10) (by omega) (by omega)

lemma schedQuals_stop {q : Nat} (hq : ¬ 50 < q) : schedQuals q = [q] := by
  cases q with
  | zero => rfl
  | succ f =>
    show schedQualsF (f + 1) (f + 1) = [f + 1]
    simp only [schedQualsF]
    rw [if_neg hq]

lemma self_mem_schedQuals (q : Nat) : q ∈ schedQuals q := by
  by_cases hq : 50 < q
  · rw [schedQuals_cons hq]
    exact List.mem_cons_self _ _
  · rw [schedQuals_stop hq]
    exact List.mem_singleton.mpr rfl

/-- Final quality is on the decrement schedule (or the fallback's 20),
and the final dimensions are some number of shrink steps from the
preprocessed image. -/
lemma searchLoopF_quality_dims (enc : Image → Nat → Nat) (req : CompressionRequest) :
    ∀ (f : Nat) (img : Image) (q : Nat),
      ((searchLoopF enc req f img q).quality ∈ schedQuals q ∨
        (searchLoopF enc req f img q).quality = 20) ∧
      ∃ n : Nat, (searchLoopF enc req f img q).width = (shrink^[n] img).width ∧
        (searchLoopF enc req f img q).height = (shrink^[n] img).height := by
  intro f
  induction f with
  | zero =>
    intro img q
    exact ⟨Or.inr rfl, 0, rfl, rfl⟩
  | succ f ih =>
    intro img q
    simp only [searchLoopF]
    split_ifs with h20 hsz hq hw
    · exact ⟨Or.inl (self_mem_schedQuals q), 0, rfl, rfl⟩
    · have hr : reduceStep img q = (img, q - 10) := by rw [reduceStep, if_pos hq]
      rw [hr]
      obtain ⟨hqual, n, hw', hh'⟩ := ih img (q - 10)
      refine ⟨?_, n, hw', hh'⟩
      rcases hqual with h' | h'
      · exact Or.inl (by rw [schedQuals_cons hq]; exact List.mem_cons_of_mem _ h')
      · exact Or.inr h'
    · exact ⟨Or.inr rfl, 0, rfl, rfl⟩
    · have hr : reduceStep img q = (shrink img, q) := by rw [reduceStep, if_neg hq]
      rw [hr]
      obtain ⟨hqual, n, hw', hh'⟩ := ih (shrink img) q
      refine ⟨hqual, n + 1, ?_, ?_⟩
      · rw [hw', Function.iterate_succ_apply]
      · rw [hh', Function.iterate_succ_apply]
    · exact ⟨Or.inr rfl, 0, rfl, rfl⟩

lemma qSteps_succ {q : Nat} (h : 50 < q) : qSteps q = qSteps (q - 10) + 1 := by
  unfold qSteps
  omega

lemma wStepsF_irrel : ∀ (f f' w : Nat), w ≤ f → w ≤ f' → wStepsF f w = wStepsF f' w := by
  intro f
  induction f with
  | zero =>
    intro f' w h _
    have hw0 : w = 0 := by omega
    subst hw0
    have hs : ¬ 400 ≤ shrinkW 0 := by decide
    cases f' with
    | zero => rfl
    | succ f'' =>
      simp only [wStepsF]
      rw [if_neg hs]
  | succ f ih =>
    intro f' w h h'
    by_cases hs : 400 ≤ shrinkW w
    · have hlt : shrinkW w < w := shrinkW_lt hs
      cases f' with
      | zero =>
        exfalso
        have hw0 : w = 0 := by omega
        subst hw0
        exact absurd hs (by decide)
      | succ f'' =>
        simp only [wStepsF]
        rw [if_pos hs, if_pos hs]
        congr 1
        exact ih f'' (shrinkW w) (by omega) (by omega)
    · cases f' with
      | zero =>
        have hw0 : w = 0 := by omega
        subst hw0
        rfl
      | succ f'' =>
        simp only [wStepsF]
        rw [if_neg hs, if_neg hs]

lemma wSteps_succ {w : Nat} (h : 400 ≤ shrinkW w) :
    wSteps w = wSteps (shrinkW w) + 1 := by
  have hlt : shrinkW w < w := shrinkW_lt h
  obtain ⟨f, rfl⟩ : ∃ f, w = f + 1 := ⟨w - 1, by omega⟩
  show wStepsF (f + 1) (f + 1) = wStepsF (shrinkW (f + 1)) (shrinkW (f + 1)) + 1
  simp only [wStepsF]
  rw [if_pos h]
  congr 1
  exact wStepsF_irrel f (shrinkW (f + 1)) (shrinkW (f + 1)) (by omega) (le_refl _)

lemma wStepsF_spec : ∀ (f w : Nat), w ≤ f → shrinkW (shrinkW^[wStepsF f w] w) < 400 := by
  intro f
  induction f with
  | zero =>
    intro w h
    have hw0 : w = 0 := by omega
    subst hw0
    decide
  | succ f ih =>
    intro w h
    by_cases hs : 400 ≤ shrinkW w
    · have hlt := shrinkW_lt hs
      simp only [wStepsF]
      rw [if_pos hs, Function.iterate_succ_apply]
      exact ih (shrinkW w) (by omega)
    · simp only [wStepsF]
      rw [if_neg hs]
      simpa using not_le.mp hs

/-- After `wSteps w` shrink steps, the next shrink would cross the
400px floor — the shrink phase is finite with a computable bound. -/
lemma wSteps_spec (w : Nat) : shrinkW (shrinkW^[wSteps w] w) < 400 :=
  wStepsF_spec w w (le_refl w)

/-- Length of the encoder-call trace: one call per decrement, one per
shrink, plus the final probe and the fallback encode. -/
lemma searchQsF_length (enc : Image → Nat → Nat) (req : CompressionRequest) :
    ∀ (f : Nat) (img : Image) (q : Nat), q + img.width < f →
      (searchQsF enc req f img q).length ≤ qSteps q + wSteps img.width + 2 := by
  intro f
  induction f with
  | zero => intro img q h; exact absurd h (Nat.not_lt_zero _)
  | succ f ih =>
    intro img q h
    simp only [searchQsF]
    split_ifs with h20 hsz hq hw
    · simp only [List.length_singleton]
      omega
    · have hr : reduceStep img q = (img, q - 10) := by rw [reduceStep, if_pos hq]
      rw [hr]
      have hrec := ih img (q - 10) (by omega)
      have hqs := qSteps_succ hq
      simp only [List.length_cons]
      omega
    · simp only [List.length_cons, List.length_nil]
      omega
    · have hr : reduceStep img q = (shrink img, q) := by rw [reduceStep, if_neg hq]
      rw [hr] at hw ⊢
      have h400 : 400 ≤ shrinkW img.width := not_lt.mp hw
      have hlt : shrinkW img.width < img.width := shrinkW_lt h400
      have hsw : (shrink img).width = shrinkW img.width := rfl
      have hrec := ih (shrink img) q (by rw [hsw]; omega)
      rw [hsw] at hrec
      have hws := wSteps_succ h400
      simp only [List.length_cons]
      omega
    · simp only [List.length_singleton]
      omega

/-- Claim C2 (amended): for every image whose width already fits
`max_width` and whose first encoding at the requested initial quality
fits the size budget, `compress` succeeds at exactly that quality with
the dimensions unchanged — provided the requested initial quality is at
least the loop's quality floor of 20.  The amendment adds that floor
hypothesis: `CompressionRequest` permits initial quality 1-100, and for
an initial quality below 20 the loop body never runs, so the fallback
answers with quality 20 instead of the requested one (see the
counterexample). -/
theorem c2_fast_path (enc : Image → Nat → Nat) (img : Image) (req : CompressionRequest)
    (hw : img.width ≤ req.max_width) (hq : 20 ≤ req.initial_quality)
    (hs : enc (preprocess img req) req.initial_quality ≤ req.max_size) :
    (compress enc img req).success = true ∧
    (compress enc img req).quality = req.initial_quality ∧
    (compress enc img req).width = img.width ∧
    (compress enc img req).height = img.height := by
  have hpre := preprocess_of_le img req hw
  have hcompress : compress enc img req
      = { success := true, quality := req.initial_quality,
          width := (preprocess img req).width, height := (preprocess img req).height,
          out_size := enc (preprocess img req) req.initial_quality } := by
    show searchLoopF enc req (req.initial_quality + (preprocess img req).width + 1)
        (preprocess img req) req.initial_quality = _
    simp only [searchLoopF]
    rw [if_pos hq, if_pos hs]
  rw [hcompress, hpre]
  exact ⟨rfl, rfl, rfl, rfl⟩

/-- Claim C2 as frozen is false below the quality floor: with requested
initial quality 15 (allowed by the 1-100 range) and a first encoding
that fits the budget, the loop guard `current_quality >= 20` fails
immediately and the fallback reports quality 20, not 15. -/
theorem c2_counterexample :
    (⟨100, 50, true⟩ : Image).width ≤ (⟨1920, 15, 1000⟩ : CompressionRequest).max_width ∧
    constEnc 0 (preprocess ⟨100, 50, true⟩ ⟨1920, 15, 1000⟩) 15 ≤ 1000 ∧
    ¬ (compress (constEnc 0) ⟨100, 50, true⟩ ⟨1920, 15, 1000⟩).quality = 15 := by
  decide

/-- Witness for the amended C2 at a concrete small image. -/
theorem c2_witness :
    (compress (constEnc 0) ⟨100, 50, true⟩ ⟨1920, 85, 10⟩).success = true ∧
    (compress (constEnc 0) ⟨100, 50, true⟩ ⟨1920, 85, 10⟩).quality = 85 ∧
    (compress (constEnc 0) ⟨100, 50, true⟩ ⟨1920, 85, 10⟩).width = 100 ∧
    (compress (constEnc 0) ⟨100, 50, true⟩ ⟨1920, 85, 10⟩).height = 50 :=
  c2_fast_path (constEnc 0) ⟨100, 50, true⟩ ⟨1920, 85, 10⟩ (by decide) (by decide) (by decide)

/-- Claim C3: the final quality reported by `compress` is reachable from
the requested initial quality by the fixed schedule of 10-point
decrements applied while the quality exceeds 50 (or it is the
fallback's 20), the final dimensions are the preprocessed dimensions
shrunk by the 0.8 factor some `n ≥ 0` times, and a single reduction
step never adjusts quality and dimensions together (one of the two is
always returned unchanged). -/
theorem c3_schedule (enc : Image → Nat → Nat) (img : Image) (req : CompressionRequest) :
    ((compress enc img req).quality ∈ schedQuals req.initial_quality ∨
      (compress enc img req).quality = 20) ∧
    (∃ n : Nat, (compress enc img req).width = (shrink^[n] (preprocess img req)).width ∧
      (compress enc img req).height = (shrink^[n] (preprocess img req)).height) ∧
    ∀ (i : Image) (q : Nat), (reduceStep i q).1 = i ∨ (reduceStep i q).2 = q := by
  obtain ⟨h1, h2⟩ := searchLoopF_quality_dims enc req
    (req.initial_quality + (preprocess img req).width + 1) (preprocess img req)
    req.initial_quality
  refine ⟨h1, h2, ?_⟩
  intro i q
  by_cases hq : 50 < q
  · left
    rw [reduceStep, if_pos hq]
  · right
    rw [reduceStep, if_neg hq]

/-- Claim C4: whenever the search exhausts without meeting the size
budget, the result still carries `success = true` — in fact every
result does — and a result whose size exceeds the budget is exactly the
fallback: quality 20 and a size that is the encoding of the final image
at quality 20.  The fallback never reports failure. -/
theorem c4_fallback_success (enc : Image → Nat → Nat) (img : Image)
    (req : CompressionRequest) :
    (compress enc img req).success = true ∧
    (req.max_size < (compress enc img req).out_size →
      (compress enc img req).quality = 20 ∧
      ∃ i : Image, i.width = (compress enc img req).width ∧
        i.height = (compress enc img req).height ∧
        (compress enc img req).out_size = enc i 20) :=
  searchLoopF_spec enc req _ _ _

/-- Witness for C4: a constant oversized encoder exhausts the search;
the result is still successful and reports quality 20. -/
theorem c4_witness :
    (compress (constEnc 100) ⟨500, 500, false⟩ ⟨1920, 85, 1⟩).success = true ∧
    (compress (constEnc 100) ⟨500, 500, false⟩ ⟨1920, 85, 1⟩).quality = 20 := by
  refine ⟨(c4_fallback_success (constEnc 100) ⟨500, 500, false⟩ ⟨1920, 85, 1⟩).1, ?_⟩
  exact ((c4_fallback_success (constEnc 100) ⟨500, 500, false⟩ ⟨1920, 85, 1⟩).2
    (by decide)).1

/-- Claim C5 (amended): every quality the search encodes at lies in
[20, 100] (although the request permits initial qualities down to 1),
and no produced output is narrower than 400px provided both the
original image and the configured `max_width` are at least 400px.  The
amendment adds the `max_width` proviso: preprocessing downscales to
`max_width` before the search, so a `max_width` below 400 yields an
output below 400px even when the original input is wide (see the
counterexample). -/
theorem c5_search_invariants (enc : Image → Nat → Nat) (img : Image)
    (req : CompressionRequest) (h100 : req.initial_quality ≤ 100) :
    (∀ x ∈ compressQs enc img req, 20 ≤ x ∧ x ≤ 100) ∧
    (400 ≤ img.width → 400 ≤ req.max_width → 400 ≤ (compress enc img req).width) := by
  constructor
  · exact fun x hx => searchQsF_bounds enc req _ _ _ h100 x hx
  · intro h1 h2
    exact searchLoopF_width_floor enc req _ _ _ (preprocess_width_ge img req h1 h2)

/-- Claim C5 as frozen is false: with `max_width = 300` on a 1000px-wide
original, preprocessing alone yields a 300px-wide successful output,
violating the unconditional width floor the claim states for originals
of at least 400px. -/
theorem c5_counterexample :
    400 ≤ (⟨1000, 800, false⟩ : Image).width ∧
    (compress (constEnc 0) ⟨1000, 800, false⟩ ⟨300, 85, 1⟩).width < 400 := by
  decide

/-- Witness for the amended C5 at a concrete run that both decrements
quality and shrinks dimensions. -/
theorem c5_witness :
    ((20 : Nat) ≤ 45 ∧ (45 : Nat) ≤ 100) ∧
    400 ≤ (compress (constEnc 100) ⟨500, 500, false⟩ ⟨1920, 85, 1⟩).width := by
  constructor
  · exact (c5_search_invariants (constEnc 100) ⟨500, 500, false⟩ ⟨1920, 85, 1⟩
      (by decide)).1 45 (by decide)
  · exact (c5_search_invariants (constEnc 100) ⟨500, 500, false⟩ ⟨1920, 85, 1⟩
      (by decide)).2 (by decide) (by decide)

/-- Claim C6: the search loop terminates with explicit bounds — the
encoder-call trace has length at most `qSteps initial + wSteps width + 2`
where `qSteps initial ≤ 5` for any initial quality up to 100 (at most
five 10-point decrements), and the number of shrink steps `wSteps` is a
computable bound after which the next 0.8-factor width falls below the
400px floor. -/
theorem c6_termination_bounds (enc : Image → Nat → Nat) (img : Image)
    (req : CompressionRequest) (h100 : req.initial_quality ≤ 100) :
    (compressQs enc img req).length
        ≤ qSteps req.initial_quality + wSteps (preprocess img req).width + 2 ∧
    qSteps req.initial_quality ≤ 5 ∧
    shrinkW (shrinkW^[wSteps (preprocess img req).width] (preprocess img req).width)
        < 400 := by
  refine ⟨?_, ?_, wSteps_spec _⟩
  · exact searchQsF_length enc req _ _ _ (by omega)
  · unfold qSteps
    omega

/-- Witness for C6 at a concrete run: 4 decrements and 4 shrink steps,
10 encoder calls in total, against the bound 4 + 4 + 2. -/
theorem c6_witness :
    (compressQs (constEnc 10) ⟨1000, 800, false⟩ ⟨1920, 85, 1⟩).length
        ≤ qSteps 85 + wSteps (preprocess ⟨1000, 800, false⟩ ⟨1920, 85, 1⟩).width + 2 ∧
    qSteps 85 ≤ 5 ∧
    shrinkW (shrinkW^[wSteps (preprocess ⟨1000, 800, false⟩ ⟨1920, 85, 1⟩).width]
        (preprocess ⟨1000, 800, false⟩ ⟨1920, 85, 1⟩).width) < 400 :=
  c6_termination_bounds (constEnc 10) ⟨1000, 800, false⟩ ⟨1920, 85, 1⟩ (by decide)

end DesignMirror
